import Mathlib

/-!
Verification of the change-detection and manifest subsystem of the
`autopilot` repository, shallowly embedded from
`src/modules/fsInput.js` and `src/modules/db.js`.

Modelling conventions:
* File-system state is represented explicitly: a directory listing (the
  result sequence of `fs.readdirSync`) is an `FS` value; each node is one
  listing entry together with the rest of the listing.  Broken entries
  (where `fs.statSync` or `fs.readdirSync` would throw) are explicit
  constructors, and a thrown Node error is modelled by its `path`
  property, as an `Except String` error.
* External collaborators (`countTokens`, `hashFile`, file contents,
  `mtimeMs`) are opaque function parameters, as the spec directs.
* Console logging and the module-global progress counters
  (`totalFiles` / `completedFiles`) have no effect on any return value of
  the embedded functions and are omitted, except where a claim is about
  what reaches the console (`insertOrUpdateFile`), where the logged error
  line is an explicit field of the result.
-/

namespace Autopilot

/-! ## Path model (Node `path.posix` on scanner-produced inputs) -/

/-- Models `path.posix.join(dir, name)` for a directory path and a single
listing entry name, as used at src/modules/fsInput.js:27 and 120.  For a
plain entry name (no separators, not `.` or `..`, as `readdirSync`
returns) the join is concatenation with one `/`. -/
def pjoin (d n : String) : String := d ++ "/" ++ n

/-- The characters of the last `/`-separated component of a path
(the POSIX basename), used to model `path.extname`. -/
def baseChars (l : List Char) : List Char :=
  (l.reverse.takeWhile (fun c => !(c == '/'))).reverse

/-- The suffix of a basename starting at its last `.`, or `[]` when it has
no `.`.  Helper for `extname`; it is applied to the basename minus its
first character, so that a leading dot (as in `.gitignore`) does not
count as an extension separator, matching Node. -/
def extTail : List Char → List Char
  | [] => []
  | c :: rest =>
    match extTail rest with
    | [] => if c == '.' then c :: rest else []
    | r => r

/-- Models Node `path.extname` on the paths this program builds
(`pjoin`-chains of plain `readdirSync` entry names): the part of the
basename from its last `.` to the end, empty when there is no dot or the
only dot is the basename's first character. -/
def extname (s : String) : String :=
  match baseChars s.data with
  | [] => ""
  | _ :: rest => String.mk (extTail rest)

/-- The absolute path obtained by joining a chain of entry names onto a
root directory path, one `pjoin` per tree level. -/
def render (d : String) : List String → String
  | [] => d
  | n :: rest => render (pjoin d n) rest

/-- The characters a chain of entry names contributes to its rendered
path: a `/` before each name.  `(render d segs).data = d.data ++ segsData segs`. -/
def segsData : List String → List Char
  | [] => []
  | n :: rest => '/' :: (n.data ++ segsData rest)

/-- A plain entry name as `fs.readdirSync` yields it: nonempty and free of
the `/` separator. -/
def cleanNameB (n : String) : Bool :=
  (!(n == "")) && (!(n.data.contains '/'))

/-- The host platform, distinguished only by its path-separator
convention, to express that `parseFileContent`'s relative path does not
depend on it. -/
inductive Host where
  | posix
  | win32

/-- The separator character of each host's `path` implementation. -/
def hostSep : Host → Char
  | .posix => '/'
  | .win32 => '\\'

/-- Models Node `path.relative(base, full)` (the platform `path` module,
src/modules/fsInput.js:56) for `full` lying beneath `base`, the only way
this program calls it: the relative segment chain, joined with the host's
separator character. -/
def pathRelative (h : Host) (base full : String) : String :=
  if full.data.take (base.data.length + 1) = (base ++ "/").data then
    String.mk ((full.data.drop (base.data.length + 1)).map
      (fun c => if c == '/' then hostSep h else c))
  else full

/-- Models `.replace(/\\/g, '/')` from src/modules/fsInput.js:56. -/
def replaceBackslashes (s : String) : String :=
  String.mk (s.data.map (fun c => if c == '\\' then '/' else c))

/-! ## File-system trees

`FS` is one directory listing: `nil` ends the listing, and every other
constructor is one `readdirSync` entry followed by the rest of the
listing.  `file` and `dir` are entries whose `statSync` succeeds;
`unstattable` is an entry whose `statSync` throws; `unlistable` is a
directory whose `statSync` succeeds but whose `readdirSync` throws. -/

inductive FS where
  | nil : FS
  | file (name : String) (rest : FS) : FS
  | unstattable (name : String) (rest : FS) : FS
  | unlistable (name : String) (rest : FS) : FS
  | dir (name : String) (children : FS) (rest : FS) : FS
deriving DecidableEq

/-- The entry names of a directory listing. -/
def names : FS → List String
  | .nil => []
  | .file n r => n :: names r
  | .unstattable n r => n :: names r
  | .unlistable n r => n :: names r
  | .dir n _ r => n :: names r

/-- Well-formedness of a listing as a real file system guarantees it:
every entry name is a plain name, and sibling entry names are distinct. -/
def wfF : FS → Bool
  | .nil => true
  | .file n r => cleanNameB n && (!((names r).contains n)) && wfF r
  | .unstattable n r => cleanNameB n && (!((names r).contains n)) && wfF r
  | .unlistable n r => cleanNameB n && (!((names r).contains n)) && wfF r
  | .dir n cs r => cleanNameB n && (!((names r).contains n)) && wfF cs && wfF r

/-! ## The scanner: `getFilePaths` (src/modules/fsInput.js:20-39)

For each entry of `fs.readdirSync(dir)` the source runs, in order:
`const filePath = path.posix.join(dir, file); const stats = fs.statSync(filePath);`
then `if (stats.isDirectory() && !ignoreList.includes(file))` it recurses
and splices the result, `else if (fileExtensionsToProcess.includes(path.extname(filePath)))`
it pushes `filePath`.  A thrown `statSync` / `readdirSync` error aborts
the whole call; the error is modelled by the offending path. -/

def getFilePaths (ign exts : List String) (d : String) : FS → Except String (List String)
  | .nil => .ok []
  | .file n rest =>
    match getFilePaths ign exts d rest with
    | .error e => .error e
    | .ok tl =>
      .ok ((if exts.contains (extname (pjoin d n)) then [pjoin d n] else []) ++ tl)
  | .unstattable n _ => .error (pjoin d n)
  | .unlistable n rest =>
    if ign.contains n then
      match getFilePaths ign exts d rest with
      | .error e => .error e
      | .ok tl =>
        .ok ((if exts.contains (extname (pjoin d n)) then [pjoin d n] else []) ++ tl)
    else .error (pjoin d n)
  | .dir n cs rest =>
    if ign.contains n then
      match getFilePaths ign exts d rest with
      | .error e => .error e
      | .ok tl =>
        .ok ((if exts.contains (extname (pjoin d n)) then [pjoin d n] else []) ++ tl)
    else
      match getFilePaths ign exts (pjoin d n) cs with
      | .error e => .error e
      | .ok sub =>
        match getFilePaths ign exts d rest with
        | .error e => .error e
        | .ok tl => .ok (sub ++ tl)

/-! ## The fingerprinter: `parseFileContent` and `loadFiles`
(src/modules/fsInput.js:53-104) -/

/-- The record `parseFileContent` returns (src/modules/fsInput.js:61-67). -/
structure FileRec where
  filePath : String
  fileContent : String
  fileTokensCount : Nat
  fileHash : String
  fileTimestamp : Int
deriving DecidableEq

/-- Embeds `parseFileContent(dir, filePathFull, fileContent)`
(src/modules/fsInput.js:53-68).  `ct` is the external `countTokens`, `hf`
the external `hashFile`, `mtimeF` the `fs.statSync(...).mtimeMs` oracle,
and `h` the host whose `path` module is in use. -/
def parseFileContent (h : Host) (ct : String → Nat) (hf : String → String)
    (mtimeF : String → Int) (dir filePathFull fileContent : String) : FileRec :=
  { filePath := replaceBackslashes (pathRelative h dir filePathFull)
    fileContent := fileContent
    fileTokensCount := ct fileContent
    fileHash := hf fileContent
    fileTimestamp := mtimeF filePathFull }

/-- Embeds `loadFiles(dir)` (src/modules/fsInput.js:81-104): scan, then
for each path read the content (`readF`, the `fs.readFileSync` oracle);
the guard `if (!fileContent || fileContent.length == 0) continue;` is
`content = ""` for strings, since `""` is the only falsy string. -/
def loadFiles (ign exts : List String) (h : Host) (ct : String → Nat)
    (hf : String → String) (readF : String → String) (mtimeF : String → Int)
    (d : String) (f : FS) : Except String (List FileRec) :=
  match getFilePaths ign exts d f with
  | .error e => .error e
  | .ok paths =>
    .ok (paths.filterMap (fun p =>
      let c := readF p
      if c = "" then none
      else some (parseFileContent h ct hf mtimeF d p c)))

/-! ## `getFiles` (src/modules/fsInput.js:114-137) -/

/-- An element of the `files` argument of `getFiles`: `existsFlag` is the
JS truthiness of its `exists` property; `code` is its `code` property
(absent, i.e. `none`, until `getFiles` sets it). -/
structure FileObj where
  filePath : String
  existsFlag : Bool
  code : Option String := none
deriving DecidableEq

/-- Embeds `getFiles(codeBaseDirectory, files)`: for each file object in
order, set `code` to the read content when `exists` is truthy, and to the
literal `"// This is a new file"` otherwise, and collect the objects.
`readF` is the `fs.readFileSync(_, 'utf8')` oracle. -/
def getFiles (readF : String → String) (codeBaseDirectory : String)
    (files : List FileObj) : List FileObj :=
  files.map (fun f =>
    { f with code := some (if f.existsFlag then readF (pjoin codeBaseDirectory f.filePath)
                           else "// This is a new file") })

/-! ## The manifest store: `insertOrUpdateFile` (src/modules/db.js:99-128) -/

/-- One row of the `files` table (schema at src/modules/db.js:15-23). -/
structure FileRow where
  path : String
  tokensCount : Nat
  summary : String
  summaryTokensCount : Nat
  hash : String
  timestamp : Int
  dependenciesLibs : String
deriving DecidableEq

/-- `INSERT OR REPLACE INTO files VALUES (?,...,?)` on a table keyed by
`path`: any existing row with that primary key is removed and the new row
stored.  The table is modelled as a list of rows; row order carries no
meaning. -/
def insertOrReplace (store : List FileRow) (row : FileRow) : List FileRow :=
  (store.filter (fun r => r.path ≠ row.path)) ++ [row]

/-- The first stored row at a path, modelling `SELECT ... WHERE path = ?`. -/
def findRow (store : List FileRow) (p : String) : Option FileRow :=
  store.find? (fun r => r.path == p)

/-- Everything observable about one `insertOrUpdateFile` call: the table
afterwards, the line passed to `console.error` (if any), and the value
the caller of `insertOrUpdateFile` observes. -/
structure UpsertOutcome where
  store : List FileRow
  consoleError : Option String
  callerResult : Except String Unit

/-- Embeds `insertOrUpdateFile(codeBaseDirectory, file, summary, dependenciesLibs)`
(src/modules/db.js:99-128).  `ct` is the external `countTokens`;
`runFails` says whether the underlying `db.run` fails.  The JS function
always returns `undefined` (it never throws and never returns an error
value): a `db.run` failure reaches only the callback, which passes the
line `'Error inserting/updating file:'` to `console.error`.  So
`callerResult` — what the caller observes — is normal completion
`.ok ()` in both branches. -/
def insertOrUpdateFile (ct : String → Nat) (store : List FileRow) (runFails : Bool)
    (file : FileRec) (summary dependenciesLibs : String) : UpsertOutcome :=
  let summaryTokensCount := ct summary
  let row : FileRow :=
    { path := file.filePath
      tokensCount := file.fileTokensCount
      summary := summary
      summaryTokensCount := summaryTokensCount
      hash := file.fileHash
      timestamp := file.fileTimestamp
      dependenciesLibs := dependenciesLibs }
  if runFails then
    { store := store
      consoleError := some "Error inserting/updating file:"
      callerResult := .ok () }
  else
    { store := insertOrReplace store row
      consoleError := none
      callerResult := .ok () }

/-! ## The Reconciler -/

/-- One row of the manifest projection `{path, hash, timestamp}` that
`getDBFiles` returns (src/modules/db.js:142). -/
structure ManifestRow where
  path : String
  hash : String
  timestamp : Int
deriving DecidableEq

/-- The four-way change-set partition of the spec (§4.4). -/
structure ChangeSet where
  added : List String
  modified : List String
  unchanged : List String
  removed : List String
deriving DecidableEq

/-- Modelled from the spec: the Reconciler (spec §4.4).  No reconciler
implementation exists under src/ (only its two inputs, the live
`FileRec`s and the `getDBFiles` projection, are there), so this follows
the spec's words: Added = live only; Modified = both, hashes differ;
Unchanged = both, hashes equal (timestamp never consulted); Removed =
manifest only.  Paths are correlated by exact key lookup. -/
def reconcile (live : List FileRec) (manifest : List ManifestRow) : ChangeSet :=
  { added := (live.filter (fun r =>
      (manifest.find? (fun mr => mr.path == r.filePath)).isNone)).map FileRec.filePath
    modified := (live.filter (fun r =>
      match manifest.find? (fun mr => mr.path == r.filePath) with
      | some mr => mr.hash != r.fileHash
      | none => false)).map FileRec.filePath
    unchanged := (live.filter (fun r =>
      match manifest.find? (fun mr => mr.path == r.filePath) with
      | some mr => mr.hash == r.fileHash
      | none => false)).map FileRec.filePath
    removed := (manifest.filter (fun mr =>
      (live.find? (fun r => r.filePath == mr.path)).isNone)).map ManifestRow.path }

/-! ## Derivation predicates for the scanner -/

/-- `OutAt ign exts d f segs`: scanning the listing `f` mounted at
absolute path `d` can emit the path `render d segs`.  One constructor per
way `getFilePaths` pushes a path or walks on. -/
inductive OutAt (ign exts : List String) : String → FS → List String → Prop where
  | file {d n rest} :
      exts.contains (extname (pjoin d n)) = true →
      OutAt ign exts d (FS.file n rest) [n]
  | ignDir {d n cs rest} :
      ign.contains n = true →
      exts.contains (extname (pjoin d n)) = true →
      OutAt ign exts d (FS.dir n cs rest) [n]
  | ignUnlist {d n rest} :
      ign.contains n = true →
      exts.contains (extname (pjoin d n)) = true →
      OutAt ign exts d (FS.unlistable n rest) [n]
  | recDir {d n cs rest segs} :
      ign.contains n = false →
      OutAt ign exts (pjoin d n) cs segs →
      OutAt ign exts d (FS.dir n cs rest) (n :: segs)
  | skipFile {d n rest segs} :
      OutAt ign exts d rest segs →
      OutAt ign exts d (FS.file n rest) segs
  | skipUnstat {d n rest segs} :
      OutAt ign exts d rest segs →
      OutAt ign exts d (FS.unstattable n rest) segs
  | skipUnlist {d n rest segs} :
      OutAt ign exts d rest segs →
      OutAt ign exts d (FS.unlistable n rest) segs
  | skipDir {d n cs rest segs} :
      OutAt ign exts d rest segs →
      OutAt ign exts d (FS.dir n cs rest) segs

/-- `HasDir f pre m ds`: the tree with root listing `f` contains, at the
entry-name chain `pre ++ [m]`, a directory named `m` with listing `ds`. -/
inductive HasDir : FS → List String → String → FS → Prop where
  | here {m cs rest} : HasDir (FS.dir m cs rest) [] m cs
  | under {n cs rest pre m ds} :
      HasDir cs pre m ds → HasDir (FS.dir n cs rest) (n :: pre) m ds
  | skipFile {n rest pre m ds} :
      HasDir rest pre m ds → HasDir (FS.file n rest) pre m ds
  | skipUnstat {n rest pre m ds} :
      HasDir rest pre m ds → HasDir (FS.unstattable n rest) pre m ds
  | skipUnlist {n rest pre m ds} :
      HasDir rest pre m ds → HasDir (FS.unlistable n rest) pre m ds
  | skipDir {n cs rest pre m ds} :
      HasDir rest pre m ds → HasDir (FS.dir n cs rest) pre m ds

/-- `BrokenAt ign d f p`: traversing the listing `f` mounted at `d`, the
scan performs a `statSync` or `readdirSync` that fails, on the entry at
absolute path `p`.  An `unstattable` entry always fails (src runs
`statSync` before the ignore test); an `unlistable` directory fails only
when it is recursed into, i.e. when its name is not ignored. -/
inductive BrokenAt (ign : List String) : String → FS → String → Prop where
  | unstat {d n rest} : BrokenAt ign d (FS.unstattable n rest) (pjoin d n)
  | unlist {d n rest} :
      ign.contains n = false → BrokenAt ign d (FS.unlistable n rest) (pjoin d n)
  | inDir {d n cs rest p} :
      ign.contains n = false → BrokenAt ign (pjoin d n) cs p →
      BrokenAt ign d (FS.dir n cs rest) p
  | skipFile {d n rest p} :
      BrokenAt ign d rest p → BrokenAt ign d (FS.file n rest) p
  | skipUnstat {d n rest p} :
      BrokenAt ign d rest p → BrokenAt ign d (FS.unstattable n rest) p
  | skipUnlist {d n rest p} :
      BrokenAt ign d rest p → BrokenAt ign d (FS.unlistable n rest) p
  | skipDir {d n cs rest p} :
      BrokenAt ign d rest p → BrokenAt ign d (FS.dir n cs rest) p

/-! ## Generic helper lemmas -/

theorem strData_append (a b : String) : (a ++ b).data = a.data ++ b.data := by
  cases a; cases b; rfl

theorem strData_inj {a b : String} (h : a.data = b.data) : a = b := by
  cases a; cases b; exact congrArg String.mk h

theorem nodup_key_eq {α : Type} (key : α → String) {l : List α}
    (hN : (l.map key).Nodup) {a b : α} (ha : a ∈ l) (hb : b ∈ l)
    (h : key a = key b) : a = b := by
  induction l with
  | nil => cases ha
  | cons x xs ih =>
    simp only [List.map_cons, List.nodup_cons] at hN
    rcases List.mem_cons.mp ha with ha' | ha' <;>
      rcases List.mem_cons.mp hb with hb' | hb'
    · exact ha'.trans hb'.symm
    · exfalso
      apply hN.1
      have hkey : key b = key x := by rw [← h, ha']
      exact hkey ▸ List.mem_map_of_mem key hb'
    · exfalso
      apply hN.1
      have hkey : key a = key x := by rw [h, hb']
      exact hkey ▸ List.mem_map_of_mem key ha'
    · exact ih hN.2 ha' hb'

/-! ## Store lemmas (src/modules/db.js) -/

theorem findRow_insertOrReplace_self (st : List FileRow) (row : FileRow) :
    findRow (insertOrReplace st row) row.path = some row := by
  unfold findRow insertOrReplace
  induction st with
  | nil =>
    simp only [List.filter_nil, List.nil_append]
    rw [List.find?_cons_of_pos _ (by simp)]
  | cons r rs ih =>
    by_cases hr : r.path = row.path
    · rw [List.filter_cons_of_neg (by simp [hr])]
      exact ih
    · rw [List.filter_cons_of_pos (by simp [hr]), List.cons_append,
        List.find?_cons_of_neg _ (by simp [hr])]
      exact ih

theorem findRow_insertOrReplace_other (st : List FileRow) (row : FileRow)
    {p : String} (hp : p ≠ row.path) :
    findRow (insertOrReplace st row) p = findRow st p := by
  unfold findRow insertOrReplace
  induction st with
  | nil =>
    simp only [List.filter_nil, List.nil_append, List.find?_nil]
    rw [List.find?_cons_of_neg _ (by simp; exact fun hh => hp hh.symm), List.find?_nil]
  | cons r rs ih =>
    by_cases hr : r.path = row.path
    · have hne : (r.path == p) = false := by
        simp only [beq_eq_false_iff_ne]
        exact fun hh => hp (hh ▸ hr)
      rw [List.filter_cons_of_neg (by simp [hr]),
        List.find?_cons_of_neg _ (by simp [hne]), ih]
    · rw [List.filter_cons_of_pos (by simp [hr]), List.cons_append]
      by_cases hq : r.path = p
      · rw [List.find?_cons_of_pos _ (by simp [hq]),
          List.find?_cons_of_pos _ (by simp [hq])]
      · rw [List.find?_cons_of_neg _ (by simp [hq]),
          List.find?_cons_of_neg _ (by simp [hq]), ih]

theorem filter_path_ne_idem (st : List FileRow) (q : String) :
    (st.filter (fun r => r.path ≠ q)).filter (fun r => r.path ≠ q) =
      st.filter (fun r => r.path ≠ q) := by
  induction st with
  | nil => rfl
  | cons r rs ih =>
    by_cases hr : r.path = q
    · rw [List.filter_cons_of_neg (by simp [hr]), ih]
    · rw [List.filter_cons_of_pos (by simp [hr]),
        List.filter_cons_of_pos (by simp [hr]), ih]

theorem insertOrReplace_idem (st : List FileRow) (row : FileRow) :
    insertOrReplace (insertOrReplace st row) row = insertOrReplace st row := by
  unfold insertOrReplace
  rw [List.filter_append, filter_path_ne_idem,
    List.filter_cons_of_neg (by simp), List.filter_nil, List.append_nil]

/-! ## Claim theorems: the manifest store -/

/-- C4 counterexample: the claim says a failed upsert is surfaced to the
caller as an error result, never reported as success.  At this concrete
input the underlying `db.run` fails (`runFails = true`), the failure is
only logged, and the caller of `insertOrUpdateFile` observes exactly the
same normal completion as on success: the failed upsert is
indistinguishable from a successful one at the call site. -/
theorem insertOrUpdateFile_failure_not_surfaced :
    (insertOrUpdateFile (fun s => s.length) [] true
        { filePath := "a.js", fileContent := "x", fileTokensCount := 1,
          fileHash := "h", fileTimestamp := 0 } "sum" "deps").callerResult =
      Except.ok () ∧
    (insertOrUpdateFile (fun s => s.length) [] true
        { filePath := "a.js", fileContent := "x", fileTokensCount := 1,
          fileHash := "h", fileTimestamp := 0 } "sum" "deps").callerResult =
      (insertOrUpdateFile (fun s => s.length) [] false
        { filePath := "a.js", fileContent := "x", fileTokensCount := 1,
          fileHash := "h", fileTimestamp := 0 } "sum" "deps").callerResult :=
  ⟨rfl, rfl⟩

/-- C4 (amended): when the underlying persistence operation fails,
`insertOrUpdateFile` passes the error line to `console.error` and leaves
the table unchanged, but surfaces nothing to its caller: the caller
observes the same normal completion as on success. -/
theorem insertOrUpdateFile_failure_logged_only (ct : String → Nat)
    (st : List FileRow) (f : FileRec) (summary deps : String) :
    (insertOrUpdateFile ct st true f summary deps).callerResult =
      (insertOrUpdateFile ct st false f summary deps).callerResult ∧
    (insertOrUpdateFile ct st true f summary deps).consoleError =
      some "Error inserting/updating file:" ∧
    (insertOrUpdateFile ct st true f summary deps).store = st :=
  ⟨rfl, rfl, rfl⟩

/-- C6: a successful `insertOrUpdateFile` stores at `file.filePath` the
full seven-column row built from its arguments (every column
overwritten), leaves every other path's row unchanged, and applying the
same entry twice yields the same stored state as applying it once. -/
theorem insertOrUpdateFile_full_row_idempotent (ct : String → Nat)
    (st : List FileRow) (f : FileRec) (summary deps : String) :
    findRow (insertOrUpdateFile ct st false f summary deps).store f.filePath =
      some { path := f.filePath, tokensCount := f.fileTokensCount,
             summary := summary, summaryTokensCount := ct summary,
             hash := f.fileHash, timestamp := f.fileTimestamp,
             dependenciesLibs := deps } ∧
    (∀ p, p ≠ f.filePath →
      findRow (insertOrUpdateFile ct st false f summary deps).store p = findRow st p) ∧
    (insertOrUpdateFile ct (insertOrUpdateFile ct st false f summary deps).store
        false f summary deps).store =
      (insertOrUpdateFile ct st false f summary deps).store := by
  refine ⟨?_, ?_, ?_⟩
  · exact findRow_insertOrReplace_self st _
  · intro p hp
    exact findRow_insertOrReplace_other st _ hp
  · exact insertOrReplace_idem st _

/-- C6 witness: the theorem applied at a concrete store and entry; the
projection taken is idempotence of the stored state. -/
theorem insertOrUpdateFile_full_row_idempotent_witness :
    (insertOrUpdateFile (fun s => s.length)
        (insertOrUpdateFile (fun s => s.length)
          [{ path := "b.js", tokensCount := 2, summary := "s0", summaryTokensCount := 2,
             hash := "h0", timestamp := 7, dependenciesLibs := "" }] false
          { filePath := "a.js", fileContent := "x", fileTokensCount := 1,
            fileHash := "h1", fileTimestamp := 3 } "sum" "deps").store
        false
        { filePath := "a.js", fileContent := "x", fileTokensCount := 1,
          fileHash := "h1", fileTimestamp := 3 } "sum" "deps").store =
      (insertOrUpdateFile (fun s => s.length)
        [{ path := "b.js", tokensCount := 2, summary := "s0", summaryTokensCount := 2,
           hash := "h0", timestamp := 7, dependenciesLibs := "" }] false
        { filePath := "a.js", fileContent := "x", fileTokensCount := 1,
          fileHash := "h1", fileTimestamp := 3 } "sum" "deps").store :=
  (insertOrUpdateFile_full_row_idempotent (fun s => s.length)
    [{ path := "b.js", tokensCount := 2, summary := "s0", summaryTokensCount := 2,
       hash := "h0", timestamp := 7, dependenciesLibs := "" }]
    { filePath := "a.js", fileContent := "x", fileTokensCount := 1,
      fileHash := "h1", fileTimestamp := 3 } "sum" "deps").2.2

/-- C9: the row a successful `insertOrUpdateFile` stores at
`file.filePath` carries `summary` and a `summaryTokensCount` equal to
`countTokens` of that same stored summary string — the two columns are
written together, never out of sync. -/
theorem insertOrUpdateFile_summary_tokens_coupled (ct : String → Nat)
    (st : List FileRow) (f : FileRec) (summary deps : String) :
    ∃ row, findRow (insertOrUpdateFile ct st false f summary deps).store
        f.filePath = some row ∧
      row.summary = summary ∧ row.summaryTokensCount = ct row.summary := by
  refine ⟨_, findRow_insertOrReplace_self st _, rfl, rfl⟩

/-! ## Claim theorem: `getFiles` -/

/-- C10: `getFiles` returns one object per input object in input order;
position `i` of the output is position `i` of the input with `code` set
to the content read from `codeBaseDirectory` joined with its `filePath`
when its `exists` flag is truthy, and to the literal
`"// This is a new file"` (no filesystem access: the right-hand side does
not mention `readF`) when it is falsy. -/
theorem getFiles_shape (readF : String → String) (codeBaseDirectory : String)
    (files : List FileObj) :
    (getFiles readF codeBaseDirectory files).length = files.length ∧
    ∀ i : Nat, (getFiles readF codeBaseDirectory files)[i]? =
      files[i]?.map (fun f =>
        { f with code := some (if f.existsFlag
                               then readF (pjoin codeBaseDirectory f.filePath)
                               else "// This is a new file") }) := by
  refine ⟨by simp [getFiles], fun i => ?_⟩
  simp [getFiles, List.getElem?_map]

/-! ## Reconciler lemmas -/

theorem mem_added_iff {live : List FileRec} {manifest : List ManifestRow} {p : String} :
    p ∈ (reconcile live manifest).added ↔
      ∃ r ∈ live, r.filePath = p ∧
        manifest.find? (fun mr => mr.path == p) = none := by
  simp only [reconcile, List.mem_map, List.mem_filter, Option.isNone_iff_eq_none]
  constructor
  · rintro ⟨r, ⟨hr, hfind⟩, hp⟩
    subst hp
    exact ⟨r, hr, rfl, hfind⟩
  · rintro ⟨r, hr, hp, hfind⟩
    subst hp
    exact ⟨r, ⟨hr, hfind⟩, rfl⟩

theorem mem_modified_iff {live : List FileRec} {manifest : List ManifestRow} {p : String} :
    p ∈ (reconcile live manifest).modified ↔
      ∃ r ∈ live, r.filePath = p ∧
        ∃ mr, manifest.find? (fun mr => mr.path == p) = some mr ∧
          mr.hash ≠ r.fileHash := by
  simp only [reconcile, List.mem_map, List.mem_filter]
  constructor
  · rintro ⟨r, ⟨hr, hcond⟩, hp⟩
    subst hp
    cases hfind : manifest.find? (fun mr => mr.path == r.filePath) with
    | none => rw [hfind] at hcond; simp at hcond
    | some mr =>
      rw [hfind] at hcond
      exact ⟨r, hr, rfl, mr, rfl, by simpa using hcond⟩
  · rintro ⟨r, hr, hp, mr, hfind, hne⟩
    subst hp
    refine ⟨r, ⟨hr, ?_⟩, rfl⟩
    rw [hfind]
    simpa using hne

theorem mem_unchanged_iff {live : List FileRec} {manifest : List ManifestRow} {p : String} :
    p ∈ (reconcile live manifest).unchanged ↔
      ∃ r ∈ live, r.filePath = p ∧
        ∃ mr, manifest.find? (fun mr => mr.path == p) = some mr ∧
          mr.hash = r.fileHash := by
  simp only [reconcile, List.mem_map, List.mem_filter]
  constructor
  · rintro ⟨r, ⟨hr, hcond⟩, hp⟩
    subst hp
    cases hfind : manifest.find? (fun mr => mr.path == r.filePath) with
    | none => rw [hfind] at hcond; simp at hcond
    | some mr =>
      rw [hfind] at hcond
      exact ⟨r, hr, rfl, mr, rfl, by simpa using hcond⟩
  · rintro ⟨r, hr, hp, mr, hfind, heq⟩
    subst hp
    refine ⟨r, ⟨hr, ?_⟩, rfl⟩
    rw [hfind]
    simpa using heq

theorem mem_removed_iff {live : List FileRec} {manifest : List ManifestRow} {p : String} :
    p ∈ (reconcile live manifest).removed ↔
      ∃ mr ∈ manifest, mr.path = p ∧
        live.find? (fun r => r.filePath == p) = none := by
  simp only [reconcile, List.mem_map, List.mem_filter, Option.isNone_iff_eq_none]
  constructor
  · rintro ⟨mr, ⟨hm, hfind⟩, hp⟩
    subst hp
    exact ⟨mr, hm, rfl, hfind⟩
  · rintro ⟨mr, hm, hp, hfind⟩
    subst hp
    exact ⟨mr, ⟨hm, hfind⟩, rfl⟩

/-! ## Claim theorem: the Reconciler -/

/-- C1: for key-unique live and manifest inputs, every path occurring in
the live set or the manifest projection lies in at least one of the four
lists of the change-set `reconcile` produces, and in no two of them:
the four classes partition the path universe L ∪ M.
(Claim settled against the spec-modelled `reconcile`: the repository
ships no reconciler source under src/.) -/
theorem reconcile_exactly_one (live : List FileRec) (manifest : List ManifestRow)
    (p : String) (hL : (live.map FileRec.filePath).Nodup)
    (_hM : (manifest.map ManifestRow.path).Nodup)
    (hp : p ∈ live.map FileRec.filePath ∨ p ∈ manifest.map ManifestRow.path) :
    (p ∈ (reconcile live manifest).added ∨ p ∈ (reconcile live manifest).modified ∨
      p ∈ (reconcile live manifest).unchanged ∨ p ∈ (reconcile live manifest).removed) ∧
    ¬(p ∈ (reconcile live manifest).added ∧ p ∈ (reconcile live manifest).modified) ∧
    ¬(p ∈ (reconcile live manifest).added ∧ p ∈ (reconcile live manifest).unchanged) ∧
    ¬(p ∈ (reconcile live manifest).added ∧ p ∈ (reconcile live manifest).removed) ∧
    ¬(p ∈ (reconcile live manifest).modified ∧ p ∈ (reconcile live manifest).unchanged) ∧
    ¬(p ∈ (reconcile live manifest).modified ∧ p ∈ (reconcile live manifest).removed) ∧
    ¬(p ∈ (reconcile live manifest).unchanged ∧ p ∈ (reconcile live manifest).removed) := by
  refine ⟨?_, ?_, ?_, ?_, ?_, ?_, ?_⟩
  · -- coverage
    cases hfL : live.find? (fun r => r.filePath == p) with
    | some r =>
      have hr : r ∈ live := List.mem_of_find?_eq_some hfL
      have hrp : r.filePath = p := by simpa using List.find?_some hfL
      cases hfM : manifest.find? (fun mr => mr.path == p) with
      | none => exact Or.inl (mem_added_iff.mpr ⟨r, hr, hrp, hfM⟩)
      | some mr =>
        by_cases hh : mr.hash = r.fileHash
        · exact Or.inr (Or.inr (Or.inl (mem_unchanged_iff.mpr ⟨r, hr, hrp, mr, hfM, hh⟩)))
        · exact Or.inr (Or.inl (mem_modified_iff.mpr ⟨r, hr, hrp, mr, hfM, hh⟩))
    | none =>
      cases hfM : manifest.find? (fun mr => mr.path == p) with
      | some mr =>
        have hm : mr ∈ manifest := List.mem_of_find?_eq_some hfM
        have hmp : mr.path = p := by simpa using List.find?_some hfM
        exact Or.inr (Or.inr (Or.inr (mem_removed_iff.mpr ⟨mr, hm, hmp, hfL⟩)))
      | none =>
        exfalso
        rcases hp with hp | hp
        · rcases List.mem_map.mp hp with ⟨r, hr, hrp⟩
          exact (List.find?_eq_none.mp hfL r hr) (by simpa using hrp)
        · rcases List.mem_map.mp hp with ⟨mr, hm, hmp⟩
          exact (List.find?_eq_none.mp hfM mr hm) (by simpa using hmp)
  · rintro ⟨hA, hMo⟩
    rcases mem_added_iff.mp hA with ⟨r, _, _, hf0⟩
    rcases mem_modified_iff.mp hMo with ⟨r', _, _, mr, hf1, _⟩
    rw [hf0] at hf1
    simp at hf1
  · rintro ⟨hA, hU⟩
    rcases mem_added_iff.mp hA with ⟨r, _, _, hf0⟩
    rcases mem_unchanged_iff.mp hU with ⟨r', _, _, mr, hf1, _⟩
    rw [hf0] at hf1
    simp at hf1
  · rintro ⟨hA, hR⟩
    rcases mem_added_iff.mp hA with ⟨r, hr, hrp, _⟩
    rcases mem_removed_iff.mp hR with ⟨mr, _, _, hfL0⟩
    exact (List.find?_eq_none.mp hfL0 r hr) (by simpa using hrp)
  · rintro ⟨hMo, hU⟩
    rcases mem_modified_iff.mp hMo with ⟨r1, hr1, hp1, mr1, hf1, hne⟩
    rcases mem_unchanged_iff.mp hU with ⟨r2, hr2, hp2, mr2, hf2, heq⟩
    have hmr : mr1 = mr2 := Option.some.inj (hf1.symm.trans hf2)
    have hrr : r1 = r2 :=
      nodup_key_eq FileRec.filePath hL hr1 hr2 (hp1.trans hp2.symm)
    exact hne (hmr ▸ hrr ▸ heq)
  · rintro ⟨hMo, hR⟩
    rcases mem_modified_iff.mp hMo with ⟨r, hr, hrp, _, _, _⟩
    rcases mem_removed_iff.mp hR with ⟨mr, _, _, hfL0⟩
    exact (List.find?_eq_none.mp hfL0 r hr) (by simpa using hrp)
  · rintro ⟨hU, hR⟩
    rcases mem_unchanged_iff.mp hU with ⟨r, hr, hrp, _, _, _⟩
    rcases mem_removed_iff.mp hR with ⟨mr, _, _, hfL0⟩
    exact (List.find?_eq_none.mp hfL0 r hr) (by simpa using hrp)

/-- C1 witness: the exactly-one theorem applied to a concrete live set
and manifest projection (`a.js` fresh, `b.js` known with a different
hash, `c.js` known but gone from the live set), at the path `a.js`;
the projection taken is the four-way coverage disjunction. -/
theorem reconcile_exactly_one_witness :
    "a.js" ∈ (reconcile
      [{ filePath := "a.js", fileContent := "x", fileTokensCount := 1,
         fileHash := "h1", fileTimestamp := 0 },
       { filePath := "b.js", fileContent := "y", fileTokensCount := 1,
         fileHash := "h2", fileTimestamp := 0 }]
      [{ path := "b.js", hash := "h3", timestamp := 5 },
       { path := "c.js", hash := "h4", timestamp := 6 }]).added ∨
    "a.js" ∈ (reconcile
      [{ filePath := "a.js", fileContent := "x", fileTokensCount := 1,
         fileHash := "h1", fileTimestamp := 0 },
       { filePath := "b.js", fileContent := "y", fileTokensCount := 1,
         fileHash := "h2", fileTimestamp := 0 }]
      [{ path := "b.js", hash := "h3", timestamp := 5 },
       { path := "c.js", hash := "h4", timestamp := 6 }]).modified ∨
    "a.js" ∈ (reconcile
      [{ filePath := "a.js", fileContent := "x", fileTokensCount := 1,
         fileHash := "h1", fileTimestamp := 0 },
       { filePath := "b.js", fileContent := "y", fileTokensCount := 1,
         fileHash := "h2", fileTimestamp := 0 }]
      [{ path := "b.js", hash := "h3", timestamp := 5 },
       { path := "c.js", hash := "h4", timestamp := 6 }]).unchanged ∨
    "a.js" ∈ (reconcile
      [{ filePath := "a.js", fileContent := "x", fileTokensCount := 1,
         fileHash := "h1", fileTimestamp := 0 },
       { filePath := "b.js", fileContent := "y", fileTokensCount := 1,
         fileHash := "h2", fileTimestamp := 0 }]
      [{ path := "b.js", hash := "h3", timestamp := 5 },
       { path := "c.js", hash := "h4", timestamp := 6 }]).removed :=
  (reconcile_exactly_one
    [{ filePath := "a.js", fileContent := "x", fileTokensCount := 1,
       fileHash := "h1", fileTimestamp := 0 },
     { filePath := "b.js", fileContent := "y", fileTokensCount := 1,
       fileHash := "h2", fileTimestamp := 0 }]
    [{ path := "b.js", hash := "h3", timestamp := 5 },
     { path := "c.js", hash := "h4", timestamp := 6 }]
    "a.js" (by decide) (by decide) (Or.inl (by decide))).1

/-! ## Relative-path lemmas -/

theorem map_host_roundtrip (h : Host) (l : List Char) (hl : ('\\' : Char) ∉ l) :
    (l.map (fun c => if c == '/' then hostSep h else c)).map
      (fun c => if c == '\\' then '/' else c) = l := by
  induction l with
  | nil => rfl
  | cons c cs ih =>
    have hc : c ≠ '\\' := fun hh => hl (hh ▸ List.mem_cons_self c cs)
    have hcs : ('\\' : Char) ∉ cs := fun hh => hl (List.mem_cons_of_mem c hh)
    have hhead : (if ((if c == '/' then hostSep h else c) == '\\')
        then '/' else (if c == '/' then hostSep h else c)) = c := by
      cases h <;> by_cases hcc : c = '/' <;> simp [hostSep, hcc, hc]
    rw [List.map_cons, List.map_cons, ih hcs]
    exact congrArg (fun x => x :: cs) hhead

/-! ## Claim theorem: relative-path portability -/

/-- C7: for a file at `d ++ "/" ++ rel` beneath the root `d` (with `rel`
the POSIX relative path, backslash-free as on any real host), the
`filePath` that `parseFileContent` computes is exactly `rel` — forward
slashes only — on both the posix and the win32 host, so the stored
relative path does not depend on the host's separator convention. -/
theorem parseFileContent_relative_portable (h : Host) (ct : String → Nat)
    (hf : String → String) (mt : String → Int) (d rel content : String)
    (hrel : ('\\' : Char) ∉ rel.data) :
    (parseFileContent h ct hf mt d (d ++ "/" ++ rel) content).filePath = rel ∧
    ∀ c ∈ (parseFileContent h ct hf mt d (d ++ "/" ++ rel) content).filePath.data,
      c ≠ '\\' := by
  have hdata : (d ++ "/" ++ rel).data = (d ++ "/").data ++ rel.data :=
    strData_append _ _
  have hlen : (d ++ "/").data.length = d.data.length + 1 := by
    rw [strData_append]
    simp
  have hcond : (d ++ "/" ++ rel).data.take (d.data.length + 1) = (d ++ "/").data := by
    rw [hdata, ← hlen, List.take_left]
  have hdrop : (d ++ "/" ++ rel).data.drop (d.data.length + 1) = rel.data := by
    rw [hdata, ← hlen, List.drop_left]
  have hrelv : pathRelative h d (d ++ "/" ++ rel) =
      String.mk (rel.data.map (fun c => if c == '/' then hostSep h else c)) := by
    unfold pathRelative
    rw [if_pos hcond, hdrop]
  have hfp : (parseFileContent h ct hf mt d (d ++ "/" ++ rel) content).filePath = rel := by
    show replaceBackslashes (pathRelative h d (d ++ "/" ++ rel)) = rel
    rw [hrelv]
    unfold replaceBackslashes
    show String.mk ((rel.data.map _).map _) = rel
    rw [map_host_roundtrip h rel.data hrel]
  refine ⟨hfp, ?_⟩
  rw [hfp]
  exact fun c hc hh => hrel (hh ▸ hc)

/-- C7 witness: the portability theorem applied on the win32 host at root
`root` and relative path `a/b.js`. -/
theorem parseFileContent_relative_portable_witness :
    (parseFileContent Host.win32 String.length (fun s => s) (fun _ => 0)
      "root" ("root" ++ "/" ++ "a/b.js") "xyz").filePath = "a/b.js" :=
  (parseFileContent_relative_portable Host.win32 String.length (fun s => s)
    (fun _ => 0) "root" "a/b.js" "xyz" (by decide)).1

/-! ## Scanner lemmas -/

theorem mem_getFilePaths_ext {ign exts : List String} :
    ∀ (f : FS) (d : String) (l : List String) (q : String),
      getFilePaths ign exts d f = .ok l → q ∈ l →
      extname q ∈ exts := by
  intro f
  induction f with
  | nil =>
    intro d l q hscan hq
    simp only [getFilePaths, Except.ok.injEq] at hscan
    subst hscan
    cases hq
  | file n rest ih =>
    intro d l q hscan hq
    cases hrest : getFilePaths ign exts d rest with
    | error e => simp [getFilePaths, hrest] at hscan
    | ok tl =>
      simp [getFilePaths, hrest] at hscan
      subst hscan
      rcases List.mem_append.mp hq with h1 | h2
      · by_cases hext : extname (pjoin d n) ∈ exts
        · rw [if_pos hext] at h1
          rcases List.mem_singleton.mp h1 with rfl
          exact hext
        · rw [if_neg hext] at h1
          cases h1
      · exact ih d tl q hrest h2
  | unstattable n rest ih =>
    intro d l q hscan hq
    simp [getFilePaths] at hscan
  | unlistable n rest ih =>
    intro d l q hscan hq
    by_cases hign : n ∈ ign
    · cases hrest : getFilePaths ign exts d rest with
      | error e => simp [getFilePaths, hign, hrest] at hscan
      | ok tl =>
        simp [getFilePaths, hign, hrest] at hscan
        subst hscan
        rcases List.mem_append.mp hq with h1 | h2
        · by_cases hext : extname (pjoin d n) ∈ exts
          · rw [if_pos hext] at h1
            rcases List.mem_singleton.mp h1 with rfl
            exact hext
          · rw [if_neg hext] at h1
            cases h1
        · exact ih d tl q hrest h2
    · simp [getFilePaths, hign] at hscan
  | dir n cs rest ihcs ihrest =>
    intro d l q hscan hq
    by_cases hign : n ∈ ign
    · cases hrest : getFilePaths ign exts d rest with
      | error e => simp [getFilePaths, hign, hrest] at hscan
      | ok tl =>
        simp [getFilePaths, hign, hrest] at hscan
        subst hscan
        rcases List.mem_append.mp hq with h1 | h2
        · by_cases hext : extname (pjoin d n) ∈ exts
          · rw [if_pos hext] at h1
            rcases List.mem_singleton.mp h1 with rfl
            exact hext
          · rw [if_neg hext] at h1
            cases h1
        · exact ihrest d tl q hrest h2
    · cases hsub : getFilePaths ign exts (pjoin d n) cs with
      | error e => simp [getFilePaths, hign, hsub] at hscan
      | ok sub =>
        cases hrest : getFilePaths ign exts d rest with
        | error e => simp [getFilePaths, hign, hsub, hrest] at hscan
        | ok tl =>
          simp [getFilePaths, hign, hsub, hrest] at hscan
          subst hscan
          rcases List.mem_append.mp hq with h1 | h2
          · exact ihcs (pjoin d n) sub q hsub h1
          · exact ihrest d tl q hrest h2

theorem getFilePaths_error_brokenAt {ign exts : List String} :
    ∀ (f : FS) (d p : String), getFilePaths ign exts d f = .error p →
      BrokenAt ign d f p := by
  intro f
  induction f with
  | nil =>
    intro d p h
    simp [getFilePaths] at h
  | file n rest ih =>
    intro d p h
    cases hrest : getFilePaths ign exts d rest with
    | error e =>
      simp [getFilePaths, hrest] at h
      exact BrokenAt.skipFile (ih d p (h ▸ hrest))
    | ok tl => simp [getFilePaths, hrest] at h
  | unstattable n rest ih =>
    intro d p h
    simp only [getFilePaths, Except.error.injEq] at h
    exact h ▸ BrokenAt.unstat
  | unlistable n rest ih =>
    intro d p h
    by_cases hign : n ∈ ign
    · cases hrest : getFilePaths ign exts d rest with
      | error e =>
        simp [getFilePaths, hign, hrest] at h
        exact BrokenAt.skipUnlist (ih d p (h ▸ hrest))
      | ok tl => simp [getFilePaths, hign, hrest] at h
    · simp [getFilePaths, hign] at h
      exact h ▸ BrokenAt.unlist (by simp [hign])
  | dir n cs rest ihcs ihrest =>
    intro d p h
    by_cases hign : n ∈ ign
    · cases hrest : getFilePaths ign exts d rest with
      | error e =>
        simp [getFilePaths, hign, hrest] at h
        exact BrokenAt.skipDir (ihrest d p (h ▸ hrest))
      | ok tl => simp [getFilePaths, hign, hrest] at h
    · cases hsub : getFilePaths ign exts (pjoin d n) cs with
      | error e =>
        simp [getFilePaths, hign, hsub] at h
        exact BrokenAt.inDir (by simp [hign]) (ihcs (pjoin d n) p (h ▸ hsub))
      | ok sub =>
        cases hrest : getFilePaths ign exts d rest with
        | error e =>
          simp [getFilePaths, hign, hsub, hrest] at h
          exact BrokenAt.skipDir (ihrest d p (h ▸ hrest))
        | ok tl => simp [getFilePaths, hign, hsub, hrest] at h

theorem brokenAt_not_ok {ign exts : List String} :
    ∀ (f : FS) (d p : String), BrokenAt ign d f p →
      ∀ l, getFilePaths ign exts d f ≠ .ok l := by
  intro f
  induction f with
  | nil =>
    intro d p hb
    cases hb
  | file n rest ih =>
    intro d p hb l h
    cases hb with
    | skipFile hb' =>
      cases hrest : getFilePaths ign exts d rest with
      | error e => simp [getFilePaths, hrest] at h
      | ok tl => exact ih d p hb' tl hrest
  | unstattable n rest ih =>
    intro d p hb l h
    simp [getFilePaths] at h
  | unlistable n rest ih =>
    intro d p hb l h
    cases hb with
    | unlist hign =>
      simp only [Bool.eq_false_iff] at hign
      have hm : ¬(n ∈ ign) := by
        intro hmem
        exact hign (by simp [hmem])
      simp [getFilePaths, hm] at h
    | skipUnlist hb' =>
      by_cases hign : n ∈ ign
      · cases hrest : getFilePaths ign exts d rest with
        | error e => simp [getFilePaths, hign, hrest] at h
        | ok tl => exact ih d p hb' tl hrest
      · simp [getFilePaths, hign] at h
  | dir n cs rest ihcs ihrest =>
    intro d p hb l h
    cases hb with
    | inDir hign hb' =>
      have hm : ¬(n ∈ ign) := by
        intro hmem
        rw [show ign.contains n = true by simp [hmem]] at hign
        cases hign
      cases hsub : getFilePaths ign exts (pjoin d n) cs with
      | error e => simp [getFilePaths, hm, hsub] at h
      | ok sub => exact ihcs (pjoin d n) p hb' sub hsub
    | skipDir hb' =>
      by_cases hign : n ∈ ign
      · cases hrest : getFilePaths ign exts d rest with
        | error e => simp [getFilePaths, hign, hrest] at h
        | ok tl => exact ihrest d p hb' tl hrest
      · cases hsub : getFilePaths ign exts (pjoin d n) cs with
        | error e => simp [getFilePaths, hign, hsub] at h
        | ok sub =>
          cases hrest : getFilePaths ign exts d rest with
          | error e => simp [getFilePaths, hign, hsub, hrest] at h
          | ok tl => exact ihrest d p hb' tl hrest

/-! ## Claim theorems: scanner failure propagation and extension filtering -/

/-- C5: when the traversal performs a `statSync` or `readdirSync` that
fails (some entry at path `p` is broken and reached), `getFilePaths` does
not return any list at all — no silent skip, no partial result — and the
error it does return carries the path of a broken entry that the scan
reached. -/
theorem getFilePaths_broken_fails (ign exts : List String) (d : String) (f : FS)
    (p : String) (hb : BrokenAt ign d f p) :
    (∀ l, getFilePaths ign exts d f ≠ .ok l) ∧
    (∀ p', getFilePaths ign exts d f = .error p' → BrokenAt ign d f p') :=
  ⟨brokenAt_not_ok f d p hb, fun p' h => getFilePaths_error_brokenAt f d p' h⟩

/-- C5 witness: with `b.js` unstattable next to a readable `a.js`, the
scan fails and its error path `root/b.js` is a broken entry the scan
reached (derived through the theorem's second projection). -/
theorem getFilePaths_broken_fails_witness :
    BrokenAt [] "root" (FS.file "a.js" (FS.unstattable "b.js" FS.nil)) "root/b.js" :=
  (getFilePaths_broken_fails [] [".js"] "root"
    (FS.file "a.js" (FS.unstattable "b.js" FS.nil)) ("root" ++ "/" ++ "b.js")
    (BrokenAt.skipFile BrokenAt.unstat)).2 "root/b.js" rfl

/-- C8: a path whose extension (in the sense of `path.extname`, the test
the source applies) is not in the accepted extension set never appears in
a successful scan result — every returned path passed the extension
test. -/
theorem getFilePaths_ext_filter (ign exts : List String) (d : String) (f : FS)
    (l : List String) (p : String) (hscan : getFilePaths ign exts d f = .ok l)
    (hext : exts.contains (extname p) = false) : p ∉ l := by
  intro hp
  have hmem := mem_getFilePaths_ext f d l p hscan hp
  rw [show exts.contains (extname p) = true by simp [hmem]] at hext
  cases hext

/-- C8 witness: `a.txt` is excluded while its sibling `b.js` in the same
directory is included: the scan returns exactly `root/b.js`, and the
theorem shows `root/a.txt` is not in the result. -/
theorem getFilePaths_ext_filter_witness :
    "root/a.txt" ∉ ["root/b.js"] :=
  getFilePaths_ext_filter [] [".js"] "root"
    (FS.file "a.txt" (FS.file "b.js" FS.nil)) ["root/b.js"] "root/a.txt"
    rfl (by decide)

/-! ## Claim theorems: empty-content files -/

/-- C3 counterexample: the claim says `loadFiles` still produces a
FileRecord for every readable file whose content is zero-length.  Here
the scan finds exactly one file, `root/a.js`, its read content is `""`,
and `loadFiles` returns no record at all for it: the
`if (!fileContent || fileContent.length == 0) continue;` guard at
src/modules/fsInput.js:91-93 drops it inside the loading pipeline
itself. -/
theorem loadFiles_skips_empty_counterexample :
    loadFiles [] [".js"] Host.posix String.length (fun s => s) (fun _ => "")
        (fun _ => 0) "root" (FS.file "a.js" FS.nil) = .ok [] ∧
    getFilePaths [] [".js"] "root" (FS.file "a.js" FS.nil) = .ok ["root/a.js"] :=
  ⟨rfl, rfl⟩

/-- C3 (amended): `loadFiles` itself skips every scanned file whose read
content is empty — no returned record has empty `fileContent` — while
every scanned file with nonempty content does get its `parseFileContent`
record; and `parseFileContent`, the fingerprinting contract itself, does
not reject empty content: it builds the record with all fields defined. -/
theorem loadFiles_skips_empty (ign exts : List String) (h : Host)
    (ct : String → Nat) (hf : String → String) (readF : String → String)
    (mtimeF : String → Int) (d : String) (f : FS) (fp : String) :
    (∀ rs, loadFiles ign exts h ct hf readF mtimeF d f = .ok rs →
      (∀ r ∈ rs, r.fileContent ≠ "") ∧
      (∀ paths, getFilePaths ign exts d f = .ok paths →
        ∀ p ∈ paths, readF p ≠ "" →
          parseFileContent h ct hf mtimeF d p (readF p) ∈ rs)) ∧
    ((parseFileContent h ct hf mtimeF d fp "").fileContent = "" ∧
      (parseFileContent h ct hf mtimeF d fp "").fileTokensCount = ct "" ∧
      (parseFileContent h ct hf mtimeF d fp "").fileHash = hf "") := by
  refine ⟨?_, rfl, rfl, rfl⟩
  intro rs hok
  cases hscan : getFilePaths ign exts d f with
  | error e => simp [loadFiles, hscan] at hok
  | ok paths =>
    simp only [loadFiles, hscan, Except.ok.injEq] at hok
    subst hok
    constructor
    · intro r hr
      rcases List.mem_filterMap.mp hr with ⟨p, hp, hsome⟩
      by_cases hc : readF p = ""
      · simp [hc] at hsome
      · simp only [hc, if_false] at hsome
        rw [← Option.some.inj hsome]
        exact hc
    · intro paths' hok' p hp hne
      injection hok' with he
      subst he
      exact List.mem_filterMap.mpr ⟨p, hp, by simp [hne]⟩

/-- C3 witness: the amended theorem applied with every scanned file
reading as `"x"`: the single scanned file `root/a.js` yields exactly its
`parseFileContent` record in the `loadFiles` output. -/
theorem loadFiles_skips_empty_witness :
    parseFileContent Host.posix String.length (fun s => s) (fun _ => 0) "root"
        "root/a.js" "x" ∈
      [{ filePath := "a.js", fileContent := "x", fileTokensCount := 1,
         fileHash := "x", fileTimestamp := 0 }] :=
  ((loadFiles_skips_empty [] [".js"] Host.posix String.length (fun s => s)
      (fun _ => "x") (fun _ => 0) "root" (FS.file "a.js" FS.nil) "").1
    [{ filePath := "a.js", fileContent := "x", fileTokensCount := 1,
       fileHash := "x", fileTimestamp := 0 }] rfl).2
    ["root/a.js"] rfl "root/a.js" (by decide) (by decide)

/-! ## Rendered-path lemmas -/

theorem strData_slash : ("/" : String).data = ['/'] := rfl

theorem render_data : ∀ (segs : List String) (d : String),
    (render d segs).data = d.data ++ segsData segs := by
  intro segs
  induction segs with
  | nil =>
    intro d
    simp [render, segsData]
  | cons n rest ih =>
    intro d
    show (render (pjoin d n) rest).data = d.data ++ segsData (n :: rest)
    rw [ih (pjoin d n)]
    simp [pjoin, strData_append, strData_slash, segsData]

theorem cleanName_props {n : String} (h : cleanNameB n = true) :
    n.data ≠ [] ∧ ('/' : Char) ∉ n.data := by
  simp only [cleanNameB, Bool.and_eq_true, Bool.not_eq_true', beq_eq_false_iff_ne,
    ne_eq] at h
  refine ⟨?_, ?_⟩
  · intro hd
    exact h.1 (strData_inj (show n.data = ("" : String).data from hd))
  · intro hmem
    have : n.data.contains '/' = true := by simp [hmem]
    rw [this] at h
    exact absurd h.2 (by decide)

theorem noslash_sep_inj : ∀ (u v a b : List Char), ('/' : Char) ∉ u →
    ('/' : Char) ∉ v → u ++ '/' :: a = v ++ '/' :: b → u = v ∧ a = b := by
  intro u
  induction u with
  | nil =>
    intro v a b _ hv h
    cases v with
    | nil => simpa using h
    | cons c cs =>
      simp only [List.nil_append, List.cons_append, List.cons.injEq] at h
      exfalso
      apply hv
      rw [← h.1]
      exact List.mem_cons_self _ _
  | cons x xs ih =>
    intro v a b hu hv h
    cases v with
    | nil =>
      simp only [List.nil_append, List.cons_append, List.cons.injEq] at h
      exfalso
      apply hu
      rw [h.1]
      exact List.mem_cons_self _ _
    | cons y ys =>
      simp only [List.cons_append, List.cons.injEq] at h
      obtain ⟨hxy, h'⟩ := h
      have hu' : ('/' : Char) ∉ xs := fun hh => hu (List.mem_cons_of_mem x hh)
      have hv' : ('/' : Char) ∉ ys := fun hh => hv (List.mem_cons_of_mem y hh)
      obtain ⟨h1, h2⟩ := ih ys a b hu' hv' h'
      exact ⟨by rw [hxy, h1], h2⟩

theorem segsData_inj : ∀ (xs ys : List String),
    (∀ x ∈ xs, cleanNameB x = true) → (∀ y ∈ ys, cleanNameB y = true) →
    segsData xs = segsData ys → xs = ys := by
  intro xs
  induction xs with
  | nil =>
    intro ys _ _ h
    cases ys with
    | nil => rfl
    | cons y ys' => simp [segsData] at h
  | cons x xs' ih =>
    intro ys hx hy h
    cases ys with
    | nil => simp [segsData] at h
    | cons y ys' =>
      simp only [segsData, List.cons.injEq, true_and] at h
      have hxc := cleanName_props (hx x (List.mem_cons_self x xs'))
      have hyc := cleanName_props (hy y (List.mem_cons_self y ys'))
      cases xs' with
      | nil =>
        cases ys' with
        | nil =>
          simp only [segsData, List.append_nil] at h
          rw [strData_inj h]
        | cons y' ys'' =>
          exfalso
          apply hxc.2
          simp only [segsData, List.append_nil] at h
          rw [h]
          exact List.mem_append.mpr (Or.inr (List.mem_cons_self _ _))
      | cons x' xs'' =>
        cases ys' with
        | nil =>
          exfalso
          apply hyc.2
          simp only [segsData, List.append_nil] at h
          rw [← h]
          exact List.mem_append.mpr (Or.inr (List.mem_cons_self _ _))
        | cons y' ys'' =>
          have h2 : x.data ++ '/' :: (x'.data ++ segsData xs'') =
              y.data ++ '/' :: (y'.data ++ segsData ys'') := by
            simpa [segsData] using h
          obtain ⟨hxy, h'⟩ := noslash_sep_inj x.data y.data _ _ hxc.2 hyc.2 h2
          have hx' : ∀ z ∈ x' :: xs'', cleanNameB z = true :=
            fun z hz => hx z (List.mem_cons_of_mem x hz)
          have hy' : ∀ z ∈ y' :: ys'', cleanNameB z = true :=
            fun z hz => hy z (List.mem_cons_of_mem y hz)
          have htl := ih (y' :: ys'') hx' hy'
            (by simp only [segsData]; rw [h'])
          rw [strData_inj hxy, htl]

theorem segsData_extend : ∀ (ys xs : List String) (w : List Char),
    (∀ x ∈ xs, cleanNameB x = true) → (∀ y ∈ ys, cleanNameB y = true) →
    segsData xs = segsData ys ++ '/' :: w →
    ∃ zs, zs ≠ [] ∧ xs = ys ++ zs := by
  intro ys
  induction ys with
  | nil =>
    intro xs w _ _ h
    cases xs with
    | nil => simp [segsData] at h
    | cons x xs' => exact ⟨x :: xs', by simp, rfl⟩
  | cons y ys' ih =>
    intro xs w hx hy h
    cases xs with
    | nil => simp [segsData] at h
    | cons x xs' =>
      simp only [segsData, List.cons_append, List.cons.injEq, List.append_assoc,
        true_and] at h
      have hxc := cleanName_props (hx x (List.mem_cons_self x xs'))
      have hyc := cleanName_props (hy y (List.mem_cons_self y ys'))
      have htail : ∃ w', segsData ys' ++ '/' :: w = '/' :: w' := by
        cases ys' with
        | nil => exact ⟨w, by simp [segsData]⟩
        | cons y' ys'' => exact ⟨(y'.data ++ segsData ys'') ++ '/' :: w, by simp [segsData]⟩
      obtain ⟨w', hw'⟩ := htail
      cases xs' with
      | nil =>
        exfalso
        apply hxc.2
        simp only [segsData, List.append_nil] at h
        rw [h, hw']
        exact List.mem_append.mpr (Or.inr (List.mem_cons_self _ _))
      | cons x' xs'' =>
        have h2 : x.data ++ '/' :: (x'.data ++ segsData xs'') =
            y.data ++ '/' :: w' := by
          rw [← hw']
          simpa [segsData] using h
        obtain ⟨hxy, htl⟩ := noslash_sep_inj x.data y.data _ _ hxc.2 hyc.2 h2
        have hcancel : segsData (x' :: xs'') = segsData ys' ++ '/' :: w := by
          rw [hw']
          simp only [segsData]
          rw [htl]
        have hx' : ∀ z ∈ x' :: xs'', cleanNameB z = true :=
          fun z hz => hx z (List.mem_cons_of_mem x hz)
        have hy' : ∀ z ∈ ys', cleanNameB z = true :=
          fun z hz => hy z (List.mem_cons_of_mem y hz)
        obtain ⟨zs, hne, heq⟩ := ih (x' :: xs'') w hx' hy' hcancel
        refine ⟨zs, hne, ?_⟩
        rw [strData_inj hxy, heq]
        rfl

/-! ## Derivation-predicate lemmas -/

theorem outAt_head {ign exts : List String} :
    ∀ {d : String} {f : FS} {segs : List String}, OutAt ign exts d f segs →
    ∃ n t, segs = n :: t ∧ n ∈ names f := by
  intro d f segs h
  induction h with
  | @file d n rest _ => exact ⟨n, [], rfl, List.mem_cons_self _ _⟩
  | @ignDir d n cs rest _ _ => exact ⟨n, [], rfl, List.mem_cons_self _ _⟩
  | @ignUnlist d n rest _ _ => exact ⟨n, [], rfl, List.mem_cons_self _ _⟩
  | @recDir d n cs rest segs _ _ _ => exact ⟨n, segs, rfl, List.mem_cons_self _ _⟩
  | @skipFile d n rest segs _ ih =>
    obtain ⟨n', t, he, hm⟩ := ih
    exact ⟨n', t, he, List.mem_cons_of_mem _ hm⟩
  | @skipUnstat d n rest segs _ ih =>
    obtain ⟨n', t, he, hm⟩ := ih
    exact ⟨n', t, he, List.mem_cons_of_mem _ hm⟩
  | @skipUnlist d n rest segs _ ih =>
    obtain ⟨n', t, he, hm⟩ := ih
    exact ⟨n', t, he, List.mem_cons_of_mem _ hm⟩
  | @skipDir d n cs rest segs _ ih =>
    obtain ⟨n', t, he, hm⟩ := ih
    exact ⟨n', t, he, List.mem_cons_of_mem _ hm⟩

theorem hasDir_head : ∀ {f : FS} {pre : List String} {m : String} {ds : FS},
    HasDir f pre m ds → ∃ n t, pre ++ [m] = n :: t ∧ n ∈ names f := by
  intro f pre m ds h
  induction h with
  | @here m cs rest => exact ⟨m, [], rfl, List.mem_cons_self _ _⟩
  | @under n cs rest pre m ds _ _ =>
    exact ⟨n, pre ++ [m], rfl, List.mem_cons_self _ _⟩
  | @skipFile n rest pre m ds _ ih =>
    obtain ⟨n', t, he, hm⟩ := ih
    exact ⟨n', t, he, List.mem_cons_of_mem _ hm⟩
  | @skipUnstat n rest pre m ds _ ih =>
    obtain ⟨n', t, he, hm⟩ := ih
    exact ⟨n', t, he, List.mem_cons_of_mem _ hm⟩
  | @skipUnlist n rest pre m ds _ ih =>
    obtain ⟨n', t, he, hm⟩ := ih
    exact ⟨n', t, he, List.mem_cons_of_mem _ hm⟩
  | @skipDir n cs rest pre m ds _ ih =>
    obtain ⟨n', t, he, hm⟩ := ih
    exact ⟨n', t, he, List.mem_cons_of_mem _ hm⟩

theorem outAt_clean {ign exts : List String} :
    ∀ {d : String} {f : FS} {segs : List String}, OutAt ign exts d f segs →
    wfF f = true → ∀ x ∈ segs, cleanNameB x = true := by
  intro d f segs h
  induction h with
  | @file d n rest _ =>
    intro hw x hx
    simp only [wfF, Bool.and_eq_true] at hw
    rcases List.mem_singleton.mp hx with rfl
    exact hw.1.1
  | @ignDir d n cs rest _ _ =>
    intro hw x hx
    simp only [wfF, Bool.and_eq_true] at hw
    rcases List.mem_singleton.mp hx with rfl
    exact hw.1.1.1
  | @ignUnlist d n rest _ _ =>
    intro hw x hx
    simp only [wfF, Bool.and_eq_true] at hw
    rcases List.mem_singleton.mp hx with rfl
    exact hw.1.1
  | @recDir d n cs rest segs _ _ ih =>
    intro hw x hx
    simp only [wfF, Bool.and_eq_true] at hw
    rcases List.mem_cons.mp hx with rfl | hx'
    · exact hw.1.1.1
    · exact ih hw.1.2 x hx'
  | @skipFile d n rest segs _ ih =>
    intro hw x hx
    simp only [wfF, Bool.and_eq_true] at hw
    exact ih hw.2 x hx
  | @skipUnstat d n rest segs _ ih =>
    intro hw x hx
    simp only [wfF, Bool.and_eq_true] at hw
    exact ih hw.2 x hx
  | @skipUnlist d n rest segs _ ih =>
    intro hw x hx
    simp only [wfF, Bool.and_eq_true] at hw
    exact ih hw.2 x hx
  | @skipDir d n cs rest segs _ ih =>
    intro hw x hx
    simp only [wfF, Bool.and_eq_true] at hw
    exact ih hw.2 x hx

theorem hasDir_clean : ∀ {f : FS} {pre : List String} {m : String} {ds : FS},
    HasDir f pre m ds → wfF f = true →
    (∀ x ∈ pre, cleanNameB x = true) ∧ cleanNameB m = true := by
  intro f pre m ds h
  induction h with
  | @here m cs rest =>
    intro hw
    simp only [wfF, Bool.and_eq_true] at hw
    exact ⟨fun x hx => absurd hx (List.not_mem_nil x), hw.1.1.1⟩
  | @under n cs rest pre m ds _ ih =>
    intro hw
    simp only [wfF, Bool.and_eq_true] at hw
    obtain ⟨hpre, hm⟩ := ih hw.1.2
    refine ⟨?_, hm⟩
    intro x hx
    rcases List.mem_cons.mp hx with rfl | hx'
    · exact hw.1.1.1
    · exact hpre x hx'
  | @skipFile n rest pre m ds _ ih =>
    intro hw
    simp only [wfF, Bool.and_eq_true] at hw
    exact ih hw.2
  | @skipUnstat n rest pre m ds _ ih =>
    intro hw
    simp only [wfF, Bool.and_eq_true] at hw
    exact ih hw.2
  | @skipUnlist n rest pre m ds _ ih =>
    intro hw
    simp only [wfF, Bool.and_eq_true] at hw
    exact ih hw.2
  | @skipDir n cs rest pre m ds _ ih =>
    intro hw
    simp only [wfF, Bool.and_eq_true] at hw
    exact ih hw.2

theorem getFilePaths_ok_outAt {ign exts : List String} :
    ∀ (f : FS) (d : String) (l : List String) (q : String),
      getFilePaths ign exts d f = .ok l → q ∈ l →
      ∃ segs, OutAt ign exts d f segs ∧ q = render d segs := by
  intro f
  induction f with
  | nil =>
    intro d l q hscan hq
    simp only [getFilePaths, Except.ok.injEq] at hscan
    subst hscan
    cases hq
  | file n rest ih =>
    intro d l q hscan hq
    cases hrest : getFilePaths ign exts d rest with
    | error e => simp [getFilePaths, hrest] at hscan
    | ok tl =>
      simp [getFilePaths, hrest] at hscan
      subst hscan
      rcases List.mem_append.mp hq with h1 | h2
      · by_cases hext : extname (pjoin d n) ∈ exts
        · rw [if_pos hext] at h1
          rcases List.mem_singleton.mp h1 with rfl
          exact ⟨[n], OutAt.file (by simp [hext]), rfl⟩
        · rw [if_neg hext] at h1
          cases h1
      · obtain ⟨segs, ho, hr⟩ := ih d tl q hrest h2
        exact ⟨segs, OutAt.skipFile ho, hr⟩
  | unstattable n rest ih =>
    intro d l q hscan hq
    simp [getFilePaths] at hscan
  | unlistable n rest ih =>
    intro d l q hscan hq
    by_cases hign : n ∈ ign
    · cases hrest : getFilePaths ign exts d rest with
      | error e => simp [getFilePaths, hign, hrest] at hscan
      | ok tl =>
        simp [getFilePaths, hign, hrest] at hscan
        subst hscan
        rcases List.mem_append.mp hq with h1 | h2
        · by_cases hext : extname (pjoin d n) ∈ exts
          · rw [if_pos hext] at h1
            rcases List.mem_singleton.mp h1 with rfl
            exact ⟨[n], OutAt.ignUnlist (by simp [hign]) (by simp [hext]), rfl⟩
          · rw [if_neg hext] at h1
            cases h1
        · obtain ⟨segs, ho, hr⟩ := ih d tl q hrest h2
          exact ⟨segs, OutAt.skipUnlist ho, hr⟩
    · simp [getFilePaths, hign] at hscan
  | dir n cs rest ihcs ihrest =>
    intro d l q hscan hq
    by_cases hign : n ∈ ign
    · cases hrest : getFilePaths ign exts d rest with
      | error e => simp [getFilePaths, hign, hrest] at hscan
      | ok tl =>
        simp [getFilePaths, hign, hrest] at hscan
        subst hscan
        rcases List.mem_append.mp hq with h1 | h2
        · by_cases hext : extname (pjoin d n) ∈ exts
          · rw [if_pos hext] at h1
            rcases List.mem_singleton.mp h1 with rfl
            exact ⟨[n], OutAt.ignDir (by simp [hign]) (by simp [hext]), rfl⟩
          · rw [if_neg hext] at h1
            cases h1
        · obtain ⟨segs, ho, hr⟩ := ihrest d tl q hrest h2
          exact ⟨segs, OutAt.skipDir ho, hr⟩
    · cases hsub : getFilePaths ign exts (pjoin d n) cs with
      | error e => simp [getFilePaths, hign, hsub] at hscan
      | ok sub =>
        cases hrest : getFilePaths ign exts d rest with
        | error e => simp [getFilePaths, hign, hsub, hrest] at hscan
        | ok tl =>
          simp [getFilePaths, hign, hsub, hrest] at hscan
          subst hscan
          rcases List.mem_append.mp hq with h1 | h2
          · obtain ⟨segs, ho, hr⟩ := ihcs (pjoin d n) sub q hsub h1
            exact ⟨n :: segs, OutAt.recDir (by simp [hign]) ho, hr⟩
          · obtain ⟨segs, ho, hr⟩ := ihrest d tl q hrest h2
            exact ⟨segs, OutAt.skipDir ho, hr⟩

theorem outAt_hasDir_aligned {ign exts : List String} :
    ∀ {d : String} {f : FS} {qs : List String}, OutAt ign exts d f qs →
    ∀ {pre : List String} {m : String} {ds : FS},
      HasDir f pre m ds → wfF f = true → ign.contains m = true →
      ∀ zs, qs = (pre ++ [m]) ++ zs →
      zs = [] ∧ exts.contains (extname (render d (pre ++ [m]))) = true := by
  intro d f qs hout
  induction hout with
  | @file d n rest hext =>
    intro pre m ds hdir hw him zs heq
    cases hdir with
    | skipFile hdir' =>
      cases pre with
      | nil =>
        simp only [List.nil_append, List.singleton_append, List.cons.injEq] at heq
        obtain ⟨h1, h2⟩ := heq
        subst h1
        exact ⟨h2.symm, hext⟩
      | cons p ps => simp at heq
  | @ignDir d n cs rest hign hext =>
    intro pre m ds hdir hw him zs heq
    cases hdir with
    | here =>
      simp only [List.nil_append, List.singleton_append, List.cons.injEq,
        true_and] at heq
      exact ⟨heq.symm, hext⟩
    | under hdir' => simp at heq
    | skipDir hdir' =>
      cases pre with
      | nil =>
        simp only [List.nil_append, List.singleton_append, List.cons.injEq] at heq
        obtain ⟨h1, h2⟩ := heq
        subst h1
        exact ⟨h2.symm, hext⟩
      | cons p ps => simp at heq
  | @ignUnlist d n rest hign hext =>
    intro pre m ds hdir hw him zs heq
    cases hdir with
    | skipUnlist hdir' =>
      cases pre with
      | nil =>
        simp only [List.nil_append, List.singleton_append, List.cons.injEq] at heq
        obtain ⟨h1, h2⟩ := heq
        subst h1
        exact ⟨h2.symm, hext⟩
      | cons p ps => simp at heq
  | @recDir d n cs rest segs hignb hsub ihsub =>
    intro pre m ds hdir hw him zs heq
    simp only [wfF, Bool.and_eq_true] at hw
    cases hdir with
    | here =>
      rw [hignb] at him
      cases him
    | @under _ _ _ pre' _ _ hdir' =>
      have heq' : segs = (pre' ++ [m]) ++ zs := by simpa using heq
      exact ihsub hdir' hw.1.2 him zs heq'
    | skipDir hdir' =>
      obtain ⟨nh, t, hshape, hmem⟩ := hasDir_head hdir'
      rw [hshape] at heq
      simp only [List.cons_append, List.cons.injEq] at heq
      rw [← heq.1] at hmem
      have : (names rest).contains n = false := by
        simpa using hw.1.1.2
      rw [show (names rest).contains n = true by simp [hmem]] at this
      cases this
  | @skipFile d n rest segs hrest ih =>
    intro pre m ds hdir hw him zs heq
    simp only [wfF, Bool.and_eq_true] at hw
    cases hdir with
    | skipFile hdir' => exact ih hdir' hw.2 him zs heq
  | @skipUnstat d n rest segs hrest ih =>
    intro pre m ds hdir hw him zs heq
    simp only [wfF, Bool.and_eq_true] at hw
    cases hdir with
    | skipUnstat hdir' => exact ih hdir' hw.2 him zs heq
  | @skipUnlist d n rest segs hrest ih =>
    intro pre m ds hdir hw him zs heq
    simp only [wfF, Bool.and_eq_true] at hw
    cases hdir with
    | skipUnlist hdir' => exact ih hdir' hw.2 him zs heq
  | @skipDir d n cs rest segs hrest ih =>
    intro pre m ds hdir hw him zs heq
    simp only [wfF, Bool.and_eq_true] at hw
    cases hdir with
    | here =>
      obtain ⟨nh, t, hshape, hmem⟩ := outAt_head hrest
      rw [hshape] at heq
      simp only [List.nil_append, List.singleton_append, List.cons.injEq] at heq
      rw [heq.1] at hmem
      have hnot : (names rest).contains n = false := by
        simpa using hw.1.1.2
      rw [show (names rest).contains n = true by simp [hmem]] at hnot
      cases hnot
    | under hdir' =>
      obtain ⟨nh, t, hshape, hmem⟩ := outAt_head hrest
      rw [hshape] at heq
      simp only [List.cons_append, List.cons.injEq] at heq
      rw [heq.1] at hmem
      have hnot : (names rest).contains n = false := by
        simpa using hw.1.1.2
      rw [show (names rest).contains n = true by simp [hmem]] at hnot
      cases hnot
    | skipDir hdir' => exact ih hdir' hw.2 him zs heq

/-! ## Claim theorems: ignore-list enforcement -/

/-- C2 counterexample: the claim says a directory named exactly as an
ignore-list entry never appears in scan results.  With ignore list
`["d.js"]` and accepted extensions `[".js"]`, the tree rooted at `root`
containing the directory `d.js` (with a file `x.js` inside) scans to
exactly `["root/d.js"]`: the ignored directory's own path is returned,
because the source's `else if` branch applies the extension test to the
not-recursed-into directory entry (src/modules/fsInput.js:30-34). -/
theorem getFilePaths_ignored_dir_counterexample :
    getFilePaths ["d.js"] [".js"] "root"
        (FS.dir "d.js" (FS.file "x.js" FS.nil) FS.nil) = .ok ["root/d.js"] ∧
    "root/d.js" = render "root" ["d.js"] ∧
    HasDir (FS.dir "d.js" (FS.file "x.js" FS.nil) FS.nil) [] "d.js"
      (FS.file "x.js" FS.nil) ∧
    (["d.js"].contains "d.js" = true) ∧
    wfF (FS.dir "d.js" (FS.file "x.js" FS.nil) FS.nil) = true :=
  ⟨rfl, rfl, HasDir.here, by decide, by decide⟩

/-- C2 (amended): in a well-formed tree, for every directory whose name
matches an ignore-list entry, located at segment chain `pre ++ [m]`
(absolute path `render d (pre ++ [m])`), no path strictly beneath it ever
appears in a successful scan result, at any nesting depth; and the
directory's own path also never appears unless that path's extension is
in the accepted extension set (in which case the source's `else if`
branch pushes the directory entry itself). -/
theorem getFilePaths_ignored_dir_enforcement (ign exts : List String)
    (d : String) (f : FS) (l : List String) (q : String) (pre : List String)
    (m : String) (ds : FS) (hwf : wfF f = true)
    (hscan : getFilePaths ign exts d f = .ok l) (hq : q ∈ l)
    (hdir : HasDir f pre m ds) (him : ign.contains m = true) :
    (∀ s : String, q ≠ render d (pre ++ [m]) ++ "/" ++ s) ∧
    (exts.contains (extname (render d (pre ++ [m]))) = false →
      q ≠ render d (pre ++ [m])) := by
  obtain ⟨qs, hout, hqe⟩ := getFilePaths_ok_outAt f d l q hscan hq
  have hqclean : ∀ x ∈ qs, cleanNameB x = true := outAt_clean hout hwf
  have hpclean := hasDir_clean hdir hwf
  have hpmclean : ∀ x ∈ pre ++ [m], cleanNameB x = true := by
    intro x hx
    rcases List.mem_append.mp hx with h | h
    · exact hpclean.1 x h
    · rw [List.mem_singleton.mp h]
      exact hpclean.2
  constructor
  · intro s hq_eq
    have hdata0 := congrArg String.data (hqe.symm.trans hq_eq)
    rw [render_data, strData_append, strData_append, render_data] at hdata0
    have hdata : segsData qs = segsData (pre ++ [m]) ++ '/' :: s.data :=
      List.append_cancel_left
        (show String.data d ++ segsData qs =
            String.data d ++ (segsData (pre ++ [m]) ++ '/' :: s.data) by
          simpa [strData_slash, List.append_assoc] using hdata0)
    obtain ⟨zs, hzne, hqs⟩ :=
      segsData_extend (pre ++ [m]) qs s.data hqclean hpmclean hdata
    exact hzne (outAt_hasDir_aligned hout hdir hwf him zs hqs).1
  · intro hext hq_eq
    have hdata : segsData qs = segsData (pre ++ [m]) := by
      have h0 := congrArg String.data (hqe.symm.trans hq_eq)
      rw [render_data, render_data] at h0
      exact List.append_cancel_left h0
    have hqs : qs = pre ++ [m] := segsData_inj qs (pre ++ [m]) hqclean hpmclean hdata
    have halign := outAt_hasDir_aligned hout hdir hwf him []
      (by rw [hqs, List.append_nil])
    rw [halign.2] at hext
    cases hext

/-- C2 witness: scanning `root` containing the ignored directory
`node_modules` (holding `c.js`) and a sibling file `a.js`, the scan
returns exactly `root/a.js`; the theorem instantiated at that output and
at the beneath-path suffix `c.js` shows the output is not the
`node_modules` subtree path. -/
theorem getFilePaths_ignored_dir_enforcement_witness :
    "root/a.js" ≠ render "root" ["node_modules"] ++ "/" ++ "c.js" :=
  (getFilePaths_ignored_dir_enforcement ["node_modules"] [".js"] "root"
    (FS.dir "node_modules" (FS.file "c.js" FS.nil) (FS.file "a.js" FS.nil))
    ["root/a.js"] "root/a.js" [] "node_modules" (FS.file "c.js" FS.nil)
    (by decide) rfl (by decide) HasDir.here (by decide)).1 "c.js"

end Autopilot
